import Mathlib

/-!
Shallow embedding of `NoiseCaloCellsFromFileTool.cpp` (k4RecCalorimeter).

The tool loads per-layer, per-eta-bin noise histograms, estimates a
combined per-cell noise magnitude (`getNoiseConstantPerCell`), injects
Gaussian noise into a cell-energy map (`addRandomCellNoise`), and removes
cells below a significance threshold (`filterCellNoise`).

Modelling choices:
* `double` values are modelled as exact rationals (`ℚ`) for everything
  computed by bin arithmetic, and the final `sqrt` combination lives in `ℝ`.
* A ROOT `TH1F` is modelled through exactly the accessors the tool calls:
  `GetNbinsX`, `GetBinLowEdge`, `GetBinWidth`, `GetBinContent`.
* The geometry service, cell-positions tool and bitfield decoder are
  external collaborators; they are modelled as the functions
  `cellEta : CellId → ℚ` (the code takes `fabs` of it itself) and
  `cellLayer : CellId → ℕ` carried in the tool state.
* The `unordered_map<uint64_t, double>` is modelled as an association
  list; the `std::find_if` / `erase` loop of `filterCellNoise` and the
  `std::for_each` loop of `addRandomCellNoise` are modelled as structural
  recursions that also count predicate evaluations / random draws.
-/

/-- Cell identifier (`uint64_t` in the source); used only as an opaque key. -/
abbrev CellId := ℕ

/-- A 1-D ROOT histogram, through the interface the tool uses:
`GetNbinsX`, `GetBinLowEdge i`, `GetBinWidth i`, `GetBinContent i`
(1-based bin indices in ROOT convention). -/
structure Histo where
  nbins : ℤ
  lowEdge : ℤ → ℚ
  width : ℤ → ℚ
  content : ℤ → ℚ

instance : Inhabited Histo :=
  ⟨{ nbins := 0, lowEdge := fun _ => 0, width := fun _ => 0, content := fun _ => 0 }⟩

/-- The tool state relevant to per-cell estimation and the two map
transforms: the loaded histograms, the pileup flag, the filter threshold
and the (external) geometry resolution functions. -/
structure NoiseTool where
  histoElecNoiseConst : List Histo
  histoPileupConst : List Histo
  addPileup : Bool
  filterThreshold : ℚ
  cellEta : CellId → ℚ
  cellLayer : CellId → ℕ

/-- `deltaEtaBin` of lines 192-195: the uniform bin width derived from the
layer-0 histogram as
`(GetBinLowEdge(Nbins) + GetBinWidth(Nbins) - GetBinLowEdge(1)) / Nbins`. -/
def deltaEtaBin (h : Histo) : ℚ :=
  (h.lowEdge h.nbins + h.width h.nbins - h.lowEdge 1) / (h.nbins : ℚ)

/-- `etaFirtsBin` of line 196 (source spelling): `GetBinLowEdge(1)`. -/
def etaFirtsBin (h : Histo) : ℚ := h.lowEdge 1

/-- Line 198: `ibin = floor((fabs(cellEta) - etaFirtsBin) / deltaEtaBin) + 1`. -/
def ibinRaw (h : Histo) (eta : ℚ) : ℤ :=
  ⌊(|eta| - etaFirtsBin h) / deltaEtaBin h⌋ + 1

/-- Lines 199-203: if `ibin > Nbins` the index is clamped to `Nbins`. -/
def ibinClamped (h : Histo) (eta : ℚ) : ℤ :=
  if ibinRaw h eta > h.nbins then h.nbins else ibinRaw h eta

/-- Lines 173-217 of `getNoiseConstantPerCell`: the pair
`(elecNoise, pileupNoise)` before the quadratic combination.  Both default
to 0; when the electronic-histogram list is nonempty the eta bin is
resolved on the layer-0 histogram, and when the cell layer is in range the
bin contents are read (`m_histoElecNoiseConst.at(cellLayer)`, and
`m_histoPileupConst.at(cellLayer)` when pileup is enabled; `.at` is
modelled by `getD`, which the guarding length test makes faithful). -/
def elecPileupNoise (st : NoiseTool) (cid : CellId) : ℚ × ℚ :=
  if st.histoElecNoiseConst.length ≠ 0 then
    if st.cellLayer cid < st.histoElecNoiseConst.length then
      ((st.histoElecNoiseConst.getD (st.cellLayer cid) default).content
          (ibinClamped (st.histoElecNoiseConst.getD 0 default) (st.cellEta cid)),
        if st.addPileup = true then
          (st.histoPileupConst.getD (st.cellLayer cid) default).content
            (ibinClamped (st.histoElecNoiseConst.getD 0 default) (st.cellEta cid))
        else 0)
    else (0, 0)
  else (0, 0)

/-- The squared total noise `elecNoise^2 + pileupNoise^2`, kept in `ℚ`. -/
def noiseSq (st : NoiseTool) (cid : CellId) : ℚ :=
  (elecPileupNoise st cid).1 ^ 2 + (elecPileupNoise st cid).2 ^ 2

/-- Line 220: `totalNoise = sqrt(pow(elecNoise, 2) + pow(pileupNoise, 2))`. -/
noncomputable def getNoiseConstantPerCell (st : NoiseTool) (cid : CellId) : ℝ :=
  Real.sqrt (((elecPileupNoise st cid).1 : ℝ) ^ 2 + ((elecPileupNoise st cid).2 : ℝ) ^ 2)

/-- Decides `e < t * √s` (for `0 ≤ s`) by exact rational arithmetic; this
makes the filter predicate of line 102 computable.  The bridge lemma
`ltMulSqrt_iff` below proves it equivalent to the real comparison. -/
def ltMulSqrt (e t s : ℚ) : Bool :=
  if 0 ≤ t then
    if e < 0 then true else decide (e ^ 2 < t ^ 2 * s)
  else
    if 0 ≤ e then false else decide (t ^ 2 * s < e ^ 2)

/-- The filter predicate of line 102:
`p.second < m_filterThreshold * getNoiseConstantPerCell(p.first)`. -/
def belowThreshold (st : NoiseTool) (p : CellId × ℚ) : Bool :=
  ltMulSqrt p.2 st.filterThreshold (noiseSq st p.1)

/-- The `find_if` / `erase(it++)` loop of lines 100-105: each entry is
tested once against the threshold predicate and erased when it is below
threshold.  The second component counts predicate evaluations. -/
def filterLoop (st : NoiseTool) : List (CellId × ℚ) → List (CellId × ℚ) × ℕ
  | [] => ([], 0)
  | p :: ps =>
    let r := filterLoop st ps
    (if belowThreshold st p = true then r.1 else p :: r.1, r.2 + 1)

/-- `filterCellNoise` (lines 98-106): the cell map after erasing every
entry whose energy is below `m_filterThreshold * getNoiseConstantPerCell`. -/
def filterCellNoise (st : NoiseTool) (cells : List (CellId × ℚ)) : List (CellId × ℚ) :=
  (filterLoop st cells).1

/-- The `for_each` loop of lines 93-95 with the stateful Gaussian stream
made explicit: `g` is the sequence of values produced by
`m_gauss.shoot()` and the `ℕ` argument/result is the number of draws made
before/after the loop.  Each entry becomes
`energy + getNoiseConstantPerCell(cellId) * shoot()`. -/
noncomputable def addLoop (st : NoiseTool) (g : ℕ → ℝ) :
    List (CellId × ℝ) → ℕ → List (CellId × ℝ) × ℕ
  | [], k => ([], k)
  | p :: ps, k =>
    let r := addLoop st g ps (k + 1)
    ((p.1, p.2 + getNoiseConstantPerCell st p.1 * g k) :: r.1, r.2)

/-- `addRandomCellNoise` (lines 92-96), starting from a fresh draw counter. -/
noncomputable def addRandomCellNoise (st : NoiseTool) (g : ℕ → ℝ)
    (cells : List (CellId × ℝ)) : List (CellId × ℝ) :=
  (addLoop st g cells 0).1

/-- Number of Gaussian draws performed by `addRandomCellNoise`. -/
noncomputable def addRandomCellNoiseDraws (st : NoiseTool) (g : ℕ → ℝ)
    (cells : List (CellId × ℝ)) : ℕ :=
  (addLoop st g cells 0).2

/-! ## Initialization (`initNoiseFromFile`, lines 113-165) -/

/-- The source of named noise curves: the opened ROOT file.  `get` models
`TFile::Get` composed with `dynamic_cast<TH1F*>`: `none` is a null
pointer (key absent, or the object is not a `TH1F`). -/
structure NoiseFileSource where
  isZombie : Bool
  get : String → Option Histo

/-- Configuration properties consumed by `initNoiseFromFile`. -/
structure NoiseToolConfig where
  noiseFileName : String
  elecNoiseHistoName : String
  pileupHistoName : String
  numRadialLayers : ℕ
  addPileup : Bool

/-- Distinct failure modes of `initNoiseFromFile`.  In the source every
clean failure is the same `StatusCode::FAILURE`, distinguished by its
error message; `nullDeref` is not a clean failure at all: it models the
undefined behaviour of line 132/141, `*dynamic_cast<TH1F*>(...)` applied
to the null pointer returned by `Get` for a missing histogram. -/
inductive InitError where
  | noFileName
  | zombieFile
  | nullDeref
  | emptyHisto
  | noHistograms
  | histoCountMismatch
deriving DecidableEq

/-- One iteration step for one histogram (lines 130-137 / 139-146):
fetch `base + toString (i+1)`; a missing histogram means the null pointer
is dereferenced (`nullDeref`); a histogram with `GetNbinsX() < 1` is the
"0 bins" failure. -/
def loadLayer (f : NoiseFileSource) (base : String) (i : ℕ) : Except InitError Histo :=
  match f.get (base ++ toString (i + 1)) with
  | none => Except.error InitError.nullDeref
  | some h =>
    if h.nbins < 1 then Except.error InitError.emptyHisto else Except.ok h

/-- The loading loop of lines 129-148: for each layer, the electronics
histogram and (when pileup is enabled) the pileup histogram are loaded
and checked, in source order. -/
def initHistos (f : NoiseFileSource) (elecBase pileupBase : String)
    (addPileup : Bool) (n : ℕ) : Except InitError (List Histo × List Histo) :=
  (List.range n).foldlM
    (fun acc i => do
      let he ← loadLayer f elecBase i
      if addPileup = true then do
        let hp ← loadLayer f pileupBase i
        pure (acc.1 ++ [he], acc.2 ++ [hp])
      else
        pure (acc.1 ++ [he], acc.2))
    ([], [])

/-- `initNoiseFromFile` (lines 113-165): empty-file-name check, zombie
check, the loading loop, then the no-histograms check (line 153) and the
electronics/pileup count parity check (lines 157-162). -/
def initNoiseFromFile (cfg : NoiseToolConfig) (f : NoiseFileSource) :
    Except InitError (List Histo × List Histo) :=
  if cfg.noiseFileName = "" then Except.error InitError.noFileName
  else if f.isZombie = true then Except.error InitError.zombieFile
  else
    match initHistos f cfg.elecNoiseHistoName cfg.pileupHistoName
        cfg.addPileup cfg.numRadialLayers with
    | Except.error e => Except.error e
    | Except.ok (elec, pileup) =>
      if elec.length = 0 then Except.error InitError.noHistograms
      else if cfg.addPileup = true ∧ elec.length ≠ pileup.length then
        Except.error InitError.histoCountMismatch
      else Except.ok (elec, pileup)

/-! ## Concrete states used by witnesses and counterexamples -/

/-- A 10-bin histogram over eta `[0, 1)` with all bin contents `1`
(the end-to-end scenario of the spec, §8). -/
def hUnit : Histo :=
  { nbins := 10
    lowEdge := fun i => (i - 1) / 10
    width := fun _ => 1 / 10
    content := fun _ => 1 }

/-- A 1-bin histogram whose bin content is `-1` everywhere. -/
def hNeg : Histo :=
  { nbins := 1
    lowEdge := fun i => i - 1
    width := fun _ => 1
    content := fun _ => -1 }

/-- Tool state for the spec's end-to-end scenario: one layer of `hUnit`,
pileup disabled, threshold `3`, every cell at eta `5` (out of range) and
layer `0`. -/
def stFar : NoiseTool :=
  { histoElecNoiseConst := [hUnit]
    histoPileupConst := []
    addPileup := false
    filterThreshold := 3
    cellEta := fun _ => 5
    cellLayer := fun _ => 0 }

/-- Tool state with the negative-content histogram, pileup disabled. -/
def stNeg : NoiseTool :=
  { histoElecNoiseConst := [hNeg]
    histoPileupConst := []
    addPileup := false
    filterThreshold := 1
    cellEta := fun _ => 0
    cellLayer := fun _ => 0 }

/-- Tool state with no histograms loaded at all. -/
def stEmpty : NoiseTool :=
  { histoElecNoiseConst := []
    histoPileupConst := []
    addPileup := false
    filterThreshold := 1
    cellEta := fun _ => 0
    cellLayer := fun _ => 7 }

/-- A small concrete cell-energy map with distinct keys. -/
def cellsW : List (CellId × ℚ) := [(0, 1), (1, 2)]

/-- Configuration asking for one radial layer from a named file. -/
def cfgOneLayer : NoiseToolConfig :=
  { noiseFileName := "noise.root"
    elecNoiseHistoName := "h_elecNoise_fcc_"
    pileupHistoName := "h_pileup_fcc_"
    numRadialLayers := 1
    addPileup := false }

/-- A readable (non-zombie) file that contains no histogram at all. -/
def fileMissing : NoiseFileSource :=
  { isZombie := false
    get := fun _ => none }

/-! ## Helper lemmas -/

lemma noiseSq_nonneg (st : NoiseTool) (cid : CellId) : 0 ≤ noiseSq st cid :=
  add_nonneg (sq_nonneg _) (sq_nonneg _)

lemma getNoiseConstantPerCell_eq_sqrt (st : NoiseTool) (cid : CellId) :
    getNoiseConstantPerCell st cid = Real.sqrt ((noiseSq st cid : ℚ) : ℝ) := by
  unfold getNoiseConstantPerCell noiseSq
  push_cast
  rfl

lemma ltMulSqrt_iff (e t s : ℚ) (_hs : 0 ≤ s) :
    ltMulSqrt e t s = true ↔ (e : ℝ) < (t : ℝ) * Real.sqrt (s : ℝ) := by
  have hsq : (0 : ℝ) ≤ Real.sqrt (s : ℝ) := Real.sqrt_nonneg _
  unfold ltMulSqrt
  rcases le_or_lt 0 t with ht | ht
  · have htR : (0 : ℝ) ≤ (t : ℝ) := by exact_mod_cast ht
    rw [if_pos ht]
    rcases lt_or_le e 0 with he | he
    · have heR : (e : ℝ) < 0 := by exact_mod_cast he
      simp only [if_pos he, true_iff]
      exact lt_of_lt_of_le heR (mul_nonneg htR hsq)
    · have heR : (0 : ℝ) ≤ (e : ℝ) := by exact_mod_cast he
      have hmul : (t : ℝ) * Real.sqrt (s : ℝ) = Real.sqrt ((t : ℝ) ^ 2 * (s : ℝ)) := by
        rw [Real.sqrt_mul (sq_nonneg _), Real.sqrt_sq htR]
      rw [if_neg (not_lt.mpr he), hmul, Real.lt_sqrt heR]
      simp only [decide_eq_true_eq]
      constructor
      · intro h1; exact_mod_cast h1
      · intro h1; exact_mod_cast h1
  · have htR : (t : ℝ) < 0 := by exact_mod_cast ht
    rw [if_neg (not_le.mpr ht)]
    rcases le_or_lt 0 e with he | he
    · have heR : (0 : ℝ) ≤ (e : ℝ) := by exact_mod_cast he
      have hts : (t : ℝ) * Real.sqrt (s : ℝ) ≤ 0 :=
        mul_nonpos_iff.mpr (Or.inr ⟨le_of_lt htR, hsq⟩)
      rw [if_pos he]
      simp only [Bool.false_eq_true, false_iff, not_lt]
      linarith
    · have heR : (e : ℝ) < 0 := by exact_mod_cast he
      have hmul : (t : ℝ) * Real.sqrt (s : ℝ) = -Real.sqrt ((t : ℝ) ^ 2 * (s : ℝ)) := by
        rw [Real.sqrt_mul (sq_nonneg _), Real.sqrt_sq_eq_abs, abs_of_neg htR]
        ring
      have hflip : ((e : ℝ) < -Real.sqrt ((t : ℝ) ^ 2 * (s : ℝ))
          ↔ Real.sqrt ((t : ℝ) ^ 2 * (s : ℝ)) < -(e : ℝ)) := by
        constructor <;> intro h1 <;> linarith
      rw [if_neg (not_le.mpr he), hmul, hflip,
        Real.sqrt_lt' (by linarith : (0 : ℝ) < -(e : ℝ)), neg_pow]
      simp only [decide_eq_true_eq]
      have hsqe : (-1 : ℝ) ^ 2 * (e : ℝ) ^ 2 = (e : ℝ) ^ 2 := by ring
      rw [hsqe]
      constructor
      · intro h1; exact_mod_cast h1
      · intro h1; exact_mod_cast h1

lemma belowThreshold_iff (st : NoiseTool) (p : CellId × ℚ) :
    belowThreshold st p = true
      ↔ (p.2 : ℝ) < (st.filterThreshold : ℝ) * getNoiseConstantPerCell st p.1 := by
  rw [belowThreshold, ltMulSqrt_iff _ _ _ (noiseSq_nonneg st p.1),
    getNoiseConstantPerCell_eq_sqrt]

lemma filterLoop_fst (st : NoiseTool) (cells : List (CellId × ℚ)) :
    (filterLoop st cells).1 = cells.filter (fun p => !(belowThreshold st p)) := by
  induction cells with
  | nil => rfl
  | cons p ps ih =>
    simp only [filterLoop, List.filter_cons]
    cases hb : belowThreshold st p <;> simp [hb, ih]

lemma filterLoop_snd (st : NoiseTool) (cells : List (CellId × ℚ)) :
    (filterLoop st cells).2 = cells.length := by
  induction cells with
  | nil => rfl
  | cons p ps ih => simp [filterLoop, ih]

lemma length_filter_not_add_countP {α : Type} (f : α → Bool) (l : List α) :
    (l.filter (fun a => !f a)).length + l.countP f = l.length := by
  induction l with
  | nil => rfl
  | cons a l ih =>
    cases hf : f a <;> simp [List.filter_cons, List.countP_cons, hf] <;> omega

lemma mem_keys_of_lookup {l : List (CellId × ℚ)} {k : CellId} {v : ℚ}
    (h : List.lookup k l = some v) : k ∈ l.map Prod.fst := by
  induction l with
  | nil => simp at h
  | cons p ps ih =>
    rcases p with ⟨a, b⟩
    rw [List.lookup_cons] at h
    by_cases hk : k = a
    · simp [hk]
    · have hne : (k == a) = false := beq_false_of_ne hk
      rw [hne] at h
      simp only [List.map_cons, List.mem_cons]
      exact Or.inr (ih h)

lemma lookup_cons_ne {l : List (CellId × ℚ)} {k a : CellId} (b : ℚ) (hk : k ≠ a) :
    List.lookup k ((a, b) :: l) = List.lookup k l := by
  rw [List.lookup_cons, beq_false_of_ne hk]

lemma lookup_filter_eq {f : CellId × ℚ → Bool} {l : List (CellId × ℚ)}
    (hnd : (l.map Prod.fst).Nodup) {k : CellId} {v : ℚ}
    (h : List.lookup k (l.filter f) = some v) : List.lookup k l = some v := by
  induction l with
  | nil => simp at h
  | cons p ps ih =>
    rcases p with ⟨a, b⟩
    simp only [List.map_cons, List.nodup_cons] at hnd
    rcases hnd with ⟨ha, hnd⟩
    by_cases hf : f (a, b) = true
    · rw [List.filter_cons, if_pos hf] at h
      by_cases hk : k = a
      · subst hk
        simp only [List.lookup_cons_self] at h ⊢
        exact h
      · rw [lookup_cons_ne b hk] at h
        rw [lookup_cons_ne b hk]
        exact ih hnd h
    · rw [List.filter_cons, if_neg hf] at h
      by_cases hk : k = a
      · subst hk
        exfalso
        have hmem : k ∈ (ps.filter f).map Prod.fst := mem_keys_of_lookup h
        have hsub : ((ps.filter f).map Prod.fst).Sublist (ps.map Prod.fst) :=
          (List.filter_sublist ps).map Prod.fst
        exact ha (hsub.subset hmem)
      · rw [lookup_cons_ne b hk]
        exact ih hnd h

lemma addLoop_spec (st : NoiseTool) (g : ℕ → ℝ) (cells : List (CellId × ℝ)) :
    ∀ k : ℕ,
      (addLoop st g cells k).1
          = cells.mapIdx (fun i p => (p.1, p.2 + getNoiseConstantPerCell st p.1 * g (k + i)))
        ∧ (addLoop st g cells k).2 = k + cells.length := by
  induction cells with
  | nil => intro k; simp [addLoop]
  | cons p ps ih =>
    intro k
    rcases ih (k + 1) with ⟨ih1, ih2⟩
    constructor
    · simp only [addLoop, List.mapIdx_cons, Nat.add_zero, ih1]
      have harg : ∀ i : ℕ, k + 1 + i = k + (i + 1) := by omega
      simp [harg]
    · simp only [addLoop, ih2, List.length_cons]
      omega

lemma map_fst_mapIdx (f : ℕ → CellId × ℝ → ℝ) (l : List (CellId × ℝ)) :
    (l.mapIdx (fun i p => (p.1, f i p))).map Prod.fst = l.map Prod.fst := by
  induction l generalizing f with
  | nil => simp
  | cons p ps ih => simp [List.mapIdx_cons, ih]

lemma elecPileupNoise_snd_eq_zero (st : NoiseTool) (cid : CellId)
    (hp : st.addPileup = false) : (elecPileupNoise st cid).2 = 0 := by
  unfold elecPileupNoise
  split
  · split
    · simp [hp]
    · rfl
  · rfl

lemma elecPileupNoise_out_of_layer (st : NoiseTool) (cid : CellId)
    (hl : st.histoElecNoiseConst.length ≤ st.cellLayer cid) :
    elecPileupNoise st cid = (0, 0) := by
  unfold elecPileupNoise
  split
  · rw [if_neg (not_lt.mpr hl)]
  · rfl

/-! ## Claims -/

/-- C1: for every cell, the eta-bin index is
`ibin = floor((|eta| - firstBinLowEdge) / binWidth) + 1` with the bin width
derived from the layer-0 curve, clamped to `Nbins` when it exceeds `Nbins`;
an eta at or beyond the last bin's upper edge therefore reads the last
bin's content rather than failing. -/
theorem C1_bin_clamp (st : NoiseTool) (cid : CellId) (h0 : Histo) (rest : List Histo)
    (hcons : st.histoElecNoiseConst = h0 :: rest)
    (hw : 0 < deltaEtaBin h0)
    (hout : etaFirtsBin h0 + (h0.nbins : ℚ) * deltaEtaBin h0 ≤ |st.cellEta cid|) :
    ibinClamped h0 (st.cellEta cid) = min (ibinRaw h0 (st.cellEta cid)) h0.nbins
      ∧ ibinClamped h0 (st.cellEta cid) = h0.nbins
      ∧ (st.cellLayer cid < st.histoElecNoiseConst.length →
          (elecPileupNoise st cid).1
            = (st.histoElecNoiseConst.getD (st.cellLayer cid) default).content h0.nbins) := by
  have hraw : h0.nbins < ibinRaw h0 (st.cellEta cid) := by
    have hx : (h0.nbins : ℚ) ≤ (|st.cellEta cid| - etaFirtsBin h0) / deltaEtaBin h0 := by
      rw [le_div_iff₀ hw]
      linarith
    have hfl : h0.nbins ≤ ⌊(|st.cellEta cid| - etaFirtsBin h0) / deltaEtaBin h0⌋ :=
      Int.le_floor.mpr (by exact_mod_cast hx)
    unfold ibinRaw
    omega
  have hclamp : ibinClamped h0 (st.cellEta cid) = h0.nbins := by
    rw [ibinClamped, if_pos hraw]
  refine ⟨?_, hclamp, ?_⟩
  · rw [ibinClamped, if_pos hraw, min_eq_right (le_of_lt hraw)]
  · intro hlay
    have hne : st.histoElecNoiseConst.length ≠ 0 := by rw [hcons]; simp
    have hget0 : st.histoElecNoiseConst.getD 0 default = h0 := by rw [hcons]; rfl
    unfold elecPileupNoise
    rw [if_pos hne, if_pos hlay, hget0, hclamp]

theorem C1_witness :
    ibinClamped hUnit (stFar.cellEta 0) = hUnit.nbins
      ∧ (elecPileupNoise stFar 0).1
          = (stFar.histoElecNoiseConst.getD (stFar.cellLayer 0) default).content hUnit.nbins := by
  have h := C1_bin_clamp stFar 0 hUnit [] rfl
    (by norm_num [deltaEtaBin, hUnit])
    (by norm_num [etaFirtsBin, deltaEtaBin, hUnit, stFar])
  exact ⟨h.2.1, h.2.2 (by norm_num [stFar])⟩

/-- C2: `filterCellNoise` removes exactly the entries whose energy is below
`filterThreshold * getNoiseConstantPerCell`, evaluates the predicate once
per entry, and the resulting size is the original size minus the number of
removed entries. -/
theorem C2_filter_exact (st : NoiseTool) (cells : List (CellId × ℚ)) :
    (∀ p : CellId × ℚ, p ∈ filterCellNoise st cells ↔
        p ∈ cells ∧ ¬ ((p.2 : ℝ) < (st.filterThreshold : ℝ) * getNoiseConstantPerCell st p.1))
      ∧ (filterLoop st cells).2 = cells.length
      ∧ (filterCellNoise st cells).length = cells.length - cells.countP (belowThreshold st) := by
  refine ⟨?_, filterLoop_snd st cells, ?_⟩
  · intro p
    rw [filterCellNoise, filterLoop_fst, List.mem_filter]
    constructor
    · rintro ⟨hp, hb⟩
      refine ⟨hp, fun hlt => ?_⟩
      have hbt := (belowThreshold_iff st p).mpr hlt
      rw [hbt] at hb
      simp at hb
    · rintro ⟨hp, hn⟩
      refine ⟨hp, ?_⟩
      cases hb : belowThreshold st p
      · simp
      · exact absurd ((belowThreshold_iff st p).mp hb) hn
  · have hlen := length_filter_not_add_countP (belowThreshold st) cells
    rw [filterCellNoise, filterLoop_fst]
    omega

/-- C3: a cell whose layer index is at least the number of loaded noise
curves gets zero electronic and pileup noise, and `getNoiseConstantPerCell`
returns 0 without failing. -/
theorem C3_layer_out_of_range (st : NoiseTool) (cid : CellId)
    (hl : st.histoElecNoiseConst.length ≤ st.cellLayer cid) :
    elecPileupNoise st cid = (0, 0) ∧ getNoiseConstantPerCell st cid = 0 := by
  have h0 := elecPileupNoise_out_of_layer st cid hl
  refine ⟨h0, ?_⟩
  unfold getNoiseConstantPerCell
  rw [h0]
  norm_num [Real.sqrt_zero]

theorem C3_witness : getNoiseConstantPerCell stEmpty 0 = 0 :=
  (C3_layer_out_of_range stEmpty 0 (by decide)).2

/-- C4: `addRandomCellNoise` turns every entry `(cellId, energy)` into
`(cellId, energy + getNoiseConstantPerCell cellId * draw)`, using exactly
one fresh Gaussian draw per entry (N draws for N entries), and neither
adds nor removes any key. -/
theorem C4_inject_spec (st : NoiseTool) (g : ℕ → ℝ) (cells : List (CellId × ℝ)) :
    addRandomCellNoise st g cells
        = cells.mapIdx (fun i p => (p.1, p.2 + getNoiseConstantPerCell st p.1 * g i))
      ∧ addRandomCellNoiseDraws st g cells = cells.length
      ∧ (addRandomCellNoise st g cells).map Prod.fst = cells.map Prod.fst
      ∧ (addRandomCellNoise st g cells).length = cells.length := by
  rcases addLoop_spec st g cells 0 with ⟨h1, h2⟩
  have h1e : addRandomCellNoise st g cells
      = cells.mapIdx (fun i p => (p.1, p.2 + getNoiseConstantPerCell st p.1 * g i)) := by
    rw [addRandomCellNoise, h1]
    simp only [Nat.zero_add]
  refine ⟨h1e, ?_, ?_, ?_⟩
  · rw [addRandomCellNoiseDraws, h2, Nat.zero_add]
  · rw [h1e]
    exact map_fst_mapIdx (fun i p => p.2 + getNoiseConstantPerCell st p.1 * g i) cells
  · rw [h1e]
    simp [List.length_mapIdx]

/-- C7: running `filterCellNoise` a second time with the same threshold on
the result of a first run removes nothing further. -/
theorem C7_filter_idempotent (st : NoiseTool) (cells : List (CellId × ℚ)) :
    filterCellNoise st (filterCellNoise st cells) = filterCellNoise st cells := by
  simp only [filterCellNoise, filterLoop_fst, List.filter_filter]
  congr 1
  funext p
  cases belowThreshold st p <;> rfl

/-- C9: the value returned by `getNoiseConstantPerCell` is nonnegative for
every cell identifier and every table state, including states whose bin
contents are negative. -/
theorem C9_estimate_nonneg (st : NoiseTool) (cid : CellId) :
    0 ≤ getNoiseConstantPerCell st cid :=
  Real.sqrt_nonneg _

/-- C10: `filterCellNoise` never modifies an energy value: it is a sublist
of the input, and any key still present after filtering looks up to
exactly the energy it had before. -/
theorem C10_filter_frame (st : NoiseTool) (cells : List (CellId × ℚ))
    (hnd : (cells.map Prod.fst).Nodup) :
    (filterCellNoise st cells).Sublist cells
      ∧ ∀ k : CellId, ∀ v : ℚ,
          List.lookup k (filterCellNoise st cells) = some v → List.lookup k cells = some v := by
  constructor
  · rw [filterCellNoise, filterLoop_fst]
    exact List.filter_sublist cells
  · intro k v h
    rw [filterCellNoise, filterLoop_fst] at h
    exact lookup_filter_eq hnd h

theorem C10_witness : (filterCellNoise stEmpty cellsW).Sublist cellsW :=
  (C10_filter_frame stEmpty cellsW (by decide)).1

/-- C5 (divergence exhibit): on a readable file that does not contain the
required electronics histogram, loading does not fail cleanly with a
missing-curve error: the null pointer returned by `Get` is dereferenced
(undefined behaviour), modelled as the `nullDeref` outcome. -/
theorem C5_missing_histogram_crash :
    initNoiseFromFile cfgOneLayer fileMissing = Except.error InitError.nullDeref := rfl

/-- C6 counterexample: with pileup disabled and a (negative) electronic bin
content of `-1`, the returned noise is `1`, not the bin content itself. -/
theorem C6_counterexample :
    stNeg.addPileup = false
      ∧ getNoiseConstantPerCell stNeg 0 ≠ ((elecPileupNoise stNeg 0).1 : ℝ) := by
  have hep : elecPileupNoise stNeg 0 = (-1, 0) := by
    norm_num [elecPileupNoise, stNeg, hNeg, ibinClamped, ibinRaw, deltaEtaBin, etaFirtsBin]
  refine ⟨rfl, ?_⟩
  unfold getNoiseConstantPerCell
  rw [hep]
  push_cast
  norm_num [Real.sqrt_one]

/-- C6 (amended): `getNoiseConstantPerCell` returns
`sqrt(elecNoise^2 + pileupNoise^2)`, and with pileup disabled it equals the
absolute value of the electronic bin content (hence the bin content itself
exactly whenever that content is nonnegative). -/
theorem C6_total_noise (st : NoiseTool) (cid : CellId) (hp : st.addPileup = false) :
    getNoiseConstantPerCell st cid
        = Real.sqrt (((elecPileupNoise st cid).1 : ℝ) ^ 2 + ((elecPileupNoise st cid).2 : ℝ) ^ 2)
      ∧ getNoiseConstantPerCell st cid = |((elecPileupNoise st cid).1 : ℝ)| := by
  refine ⟨rfl, ?_⟩
  have h2 := elecPileupNoise_snd_eq_zero st cid hp
  unfold getNoiseConstantPerCell
  rw [h2]
  push_cast
  norm_num [Real.sqrt_sq_eq_abs]

theorem C6_witness :
    getNoiseConstantPerCell stNeg 0 = |((elecPileupNoise stNeg 0).1 : ℝ)| :=
  (C6_total_noise stNeg 0 rfl).2

/-- C8: for an eta whose magnitude lies inside the histogram range, the
computed bin index lies in `[1, Nbins]` (the clamp is not triggered, one
bin is read), and any two eta values in the same bin-width interval get
the same bin index. -/
theorem C8_bin_in_range (h0 : Histo) (eta : ℚ)
    (hw : 0 < deltaEtaBin h0)
    (hlo : etaFirtsBin h0 ≤ |eta|)
    (hhi : |eta| < etaFirtsBin h0 + (h0.nbins : ℚ) * deltaEtaBin h0) :
    (1 ≤ ibinClamped h0 eta ∧ ibinClamped h0 eta ≤ h0.nbins
        ∧ ibinClamped h0 eta = ibinRaw h0 eta)
      ∧ ∀ e1 e2 : ℚ, ∀ k : ℤ,
          etaFirtsBin h0 + (k : ℚ) * deltaEtaBin h0 ≤ |e1| →
          |e1| < etaFirtsBin h0 + ((k : ℚ) + 1) * deltaEtaBin h0 →
          etaFirtsBin h0 + (k : ℚ) * deltaEtaBin h0 ≤ |e2| →
          |e2| < etaFirtsBin h0 + ((k : ℚ) + 1) * deltaEtaBin h0 →
          ibinRaw h0 e1 = ibinRaw h0 e2 := by
  have h1 : 0 ≤ ⌊(|eta| - etaFirtsBin h0) / deltaEtaBin h0⌋ :=
    Int.floor_nonneg.mpr (div_nonneg (by linarith) hw.le)
  have h2 : ⌊(|eta| - etaFirtsBin h0) / deltaEtaBin h0⌋ < h0.nbins := by
    rw [Int.floor_lt]
    rw [div_lt_iff₀ hw]
    linarith
  have hraw1 : 1 ≤ ibinRaw h0 eta := by unfold ibinRaw; omega
  have hrawN : ibinRaw h0 eta ≤ h0.nbins := by unfold ibinRaw; omega
  have heq : ibinClamped h0 eta = ibinRaw h0 eta := by
    rw [ibinClamped, if_neg (not_lt.mpr hrawN)]
  refine ⟨⟨heq ▸ hraw1, heq ▸ hrawN, heq⟩, ?_⟩
  intro e1 e2 k h1lo h1hi h2lo h2hi
  have hfl : ∀ e : ℚ,
      etaFirtsBin h0 + (k : ℚ) * deltaEtaBin h0 ≤ |e| →
      |e| < etaFirtsBin h0 + ((k : ℚ) + 1) * deltaEtaBin h0 →
      ⌊(|e| - etaFirtsBin h0) / deltaEtaBin h0⌋ = k := by
    intro e helo hehi
    rw [Int.floor_eq_iff]
    constructor
    · rw [le_div_iff₀ hw]
      linarith
    · rw [div_lt_iff₀ hw]
      linarith
  unfold ibinRaw
  rw [hfl e1 h1lo h1hi, hfl e2 h2lo h2hi]

theorem C8_witness :
    1 ≤ ibinClamped hUnit (1 / 4) ∧ ibinClamped hUnit (1 / 4) ≤ hUnit.nbins
      ∧ ibinClamped hUnit (1 / 4) = ibinRaw hUnit (1 / 4) :=
  (C8_bin_in_range hUnit (1 / 4)
    (by norm_num [deltaEtaBin, hUnit])
    (by norm_num [etaFirtsBin, hUnit])
    (by norm_num [etaFirtsBin, deltaEtaBin, hUnit, abs_of_nonneg])).1
